import Mathlib

/-!
Verification of the PostfixExpression engine (src/PE66/ppe.h).

The C++ engine operates on a raw tagged `Node` struct (`kind` in
{'N','V','O','F'}) with `double` payloads and raw child pointers.  The
shallow embedding below renders that data model as an inductive type
(the constructors of `Node` correspond to the four kinds; the code's
constructor helpers `makeNum`/`makeVar`/`makeOp`/`makeFunc` always
populate the children required by the kind, so null required children
are unrepresentable here, matching the data-model invariant).

`double` values are modelled as `ℚ`.  The transcendental / power
primitives (`std::sin`, `std::cos`, `std::tan`, `std::log`, `std::pow`)
have no exact counterpart on `ℚ`; they are abstracted as a structure of
function parameters `TOps`, and every theorem is proved for an arbitrary
`TOps`, so nothing depends on the actual values those primitives return.
The literal 1e-12 used by the code for all tolerance tests is modelled
exactly as the rational 10⁻¹².

C++ `std::string` values are modelled as `List Char`; the `err` output
string parameters are modelled as explicitly threaded `Option E` slots
(`none` = the caller's string untouched) where `E` is an inductive
enumeration of the distinct messages the code can store.
-/

/-- Abstract stand-ins for the floating-point primitives used by the
engine (`std::sin/cos/tan/log/pow`). -/
structure TOps where
  sin : ℚ → ℚ
  cos : ℚ → ℚ
  tan : ℚ → ℚ
  log : ℚ → ℚ
  pow : ℚ → ℚ → ℚ

/-- A concrete instantiation of the transcendental primitives, used only
to produce closed instances of the general theorems. -/
def tOps0 : TOps := ⟨fun _ => 0, fun _ => 0, fun _ => 0, fun _ => 0, fun _ _ => 0⟩

/-- `std::fabs`. -/
def fabs (x : ℚ) : ℚ := if x < 0 then -x else x

/-- The tolerance 1e-12 used throughout ppe.h (`mkRat` keeps the
definition kernel-reducible). -/
def eps : ℚ := mkRat 1 1000000000000

theorem eps_val : eps = 1 / 1000000000000 := by
  unfold eps; rw [Rat.mkRat_eq_div]; norm_num

theorem eps_pos : 0 < eps := by rw [eps_val]; norm_num

/-- Expression-tree nodes (struct `Node` in ppe.h): `num` = kind 'N',
`var` = kind 'V', `fn` = kind 'F' (unary function, one child), `op` =
kind 'O' (binary operator, two children). -/
inductive Node where
  | num (v : ℚ)
  | var (ch : Char)
  | fn (ch : Char) (child : Node)
  | op (ch : Char) (l r : Node)
deriving DecidableEq, Repr

/-- `cloneTree`: deep copy of a tree (`*q = *p` then clone both
children). -/
def cloneTree : Node → Node
  | .num v => .num v
  | .var c => .var c
  | .fn c u => .fn c (cloneTree u)
  | .op c l r => .op c (cloneTree l) (cloneTree r)

/-- `funcNameFromCode`: s→"sin", c→"cos", t→"tan", l→"ln", otherwise
"func?". -/
def funcNameFromCode (c : Char) : List Char :=
  if c = 's' then ['s', 'i', 'n']
  else if c = 'c' then ['c', 'o', 's']
  else if c = 't' then ['t', 'a', 'n']
  else if c = 'l' then ['l', 'n']
  else ['f', 'u', 'n', 'c', '?']

/-- `isOp`: the five binary operator characters. -/
def isOp (c : Char) : Bool :=
  c == '+' || c == '-' || c == '*' || c == '/' || c == '^'

/-- `isNumLeaf`: the C++ bool-with-out-parameter test "is a numeric
leaf, and if so which value", rendered as an `Option`. -/
def isNumLeaf : Node → Option ℚ
  | .num v => some v
  | _ => none

/-- `treesEqual`: structural equality; numbers compare within 1e-12. -/
def treesEqual : Node → Node → Bool
  | .num a, .num b => decide (fabs (a - b) < eps)
  | .var a, .var b => a == b
  | .fn c1 u1, .fn c2 u2 => c1 == c2 && treesEqual u1 u2
  | .op c1 l1 r1, .op c2 l2 r2 => c1 == c2 && treesEqual l1 l2 && treesEqual r1 r2
  | _, _ => false

/-- Parse failures of `buildFromPostfixChars`; the constructors
enumerate the three distinct error strings the code stores. -/
inductive ParseErr where
  | invalidToken (c : Char)
  | insufficientOperands
  | malformedExpression
deriving DecidableEq, Repr

/-- The character loop of `ExprTree::buildFromPostfixChars`, with the
operand stack passed explicitly (list head = C++ `st.back()`).
Character-class tests are the code's `char` comparisons, written on
code points: 32/9/13/10 = ' ','\t','\r','\n'; 48–57 = '0'–'9';
97–122 = 'a'–'z'. -/
def parseRun : List Char → List Node → Except ParseErr (List Node)
  | [], st => .ok st
  | c :: cs, st =>
    if c.toNat = 32 ∨ c.toNat = 9 ∨ c.toNat = 13 ∨ c.toNat = 10 then
      parseRun cs st
    else if 48 ≤ c.toNat ∧ c.toNat ≤ 57 then
      parseRun cs (.num ((c.toNat - 48 : ℕ) : ℚ) :: st)
    else if 97 ≤ c.toNat ∧ c.toNat ≤ 122 then
      parseRun cs (.var c :: st)
    else if isOp c then
      match st with
      | b :: a :: st2 => parseRun cs (.op c a b :: st2)
      | _ => .error .insufficientOperands
    else .error (.invalidToken c)

/-- `ExprTree::buildFromPostfixChars`, as the function from the input
characters to the parsed tree or the reported error (the C++ version
additionally stores the tree in `root` and caches text renderings). -/
def buildFromPostfixChars (s : List Char) : Except ParseErr Node :=
  match parseRun s [] with
  | .ok [t] => .ok t
  | .ok _ => .error .malformedExpression
  | .error e => .error e

/-- The recursive serializer inside `ExprTree::toPostfix`.  A numeric
leaf that equals its `int` truncation and lies in [0,9] emits the single
digit `'0' + value`; any other number emits `[` ++ formatted value ++
`]` where the decimal formatting of the double (`oss << p->num`) is
abstracted as the parameter `fmt`.  (`v.den = 1` is exactly
"v equals its integer truncation" for a rational.) -/
def postfixOfNode (fmt : ℚ → List Char) : Node → List Char
  | .num v =>
    if v.den = 1 ∧ 0 ≤ v ∧ v ≤ 9 then [Char.ofNat (48 + v.num.toNat)]
    else '[' :: (fmt v ++ [']'])
  | .var c => [c]
  | .fn c u => postfixOfNode fmt u ++ funcNameFromCode c
  | .op c l r => postfixOfNode fmt l ++ postfixOfNode fmt r ++ [c]

/-- Evaluation failures of `ExprTree::eval`; constructors enumerate the
code's distinct error strings ("变量未赋值", "ln 参数必须 > 0",
"未知函数节点", "除零错误", "未知运算符"). -/
inductive EvalErr where
  | unboundVariable (c : Char)
  | lnDomain
  | unknownFunc
  | divisionByZero
  | unknownOp (c : Char)
deriving DecidableEq, Repr

/-- `ExprTree::eval`: post-order recursive evaluation under bindings.
(The C++ "空节点" null-node error is unrepresentable here.) -/
def evalNode (F : TOps) (env : Char → Option ℚ) : Node → Except EvalErr ℚ
  | .num v => .ok v
  | .var c =>
    match env c with
    | some x => .ok x
    | none => .error (.unboundVariable c)
  | .fn c u => do
    let x ← evalNode F env u
    match c with
    | 's' => .ok (F.sin x)
    | 'c' => .ok (F.cos x)
    | 't' => .ok (F.tan x)
    | 'l' => if x ≤ 0 then .error .lnDomain else .ok (F.log x)
    | _ => .error .unknownFunc
  | .op c l r => do
    let x ← evalNode F env l
    let y ← evalNode F env r
    match c with
    | '+' => .ok (x + y)
    | '-' => .ok (x - y)
    | '*' => .ok (x * y)
    | '/' => if fabs y < eps then .error .divisionByZero else .ok (x / y)
    | '^' => .ok (F.pow x y)
    | _ => .error (.unknownOp c)

/-- Derivative failures; constructors enumerate the error strings
`derivNode`/`DerivativeTree` can store ("不支持的函数求导",
"未知运算符，无法求导", "空表达式").  The "乘幂节点缺少子表达式" message
guards null children of '^', which are unrepresentable here. -/
inductive DerivErr where
  | unsupportedFunction
  | unsupportedOperator
  | emptyExpression
deriving DecidableEq, Repr

/-- `derivNode`: symbolic partial derivative with respect to `dv`.  The
C++ threads a by-pointer error string; it is modelled as the explicit
slot `s` (errors overwrite it, everything else leaves it alone).  A
`none` first component models the C++ returning `nullptr` (only the
unknown-operator case).  In the `'+','-','*','/'` cases the C++ calls
`makeOp` on the children's results without a null check, which would
build a node with a null required child; that state is unrepresentable
here, so those cases return `none` instead — they are reachable only
when a subtree contains an unknown operator code, and every theorem
below that touches them restricts to well-formed operator codes. -/
def derivNode : Node → Char → Option DerivErr → Option Node × Option DerivErr
  | .num _, _, s => (some (.num 0), s)
  | .var c, dv, s => (some (.num (if c = dv then 1 else 0)), s)
  | .fn c u, dv, s =>
    let p := derivNode u dv s
    match p.1 with
    | none => (some (.num 0), p.2)
    | some du =>
      if c = 's' then (some (.op '*' (.fn 'c' (cloneTree u)) du), p.2)
      else if c = 'c' then
        (some (.op '*' (.op '*' (.num (-1)) (.fn 's' (cloneTree u))) du), p.2)
      else if c = 't' then
        (some (.op '*' (.op '/' (.num 1) (.op '^' (.fn 'c' (cloneTree u)) (.num 2))) du), p.2)
      else if c = 'l' then (some (.op '/' du (cloneTree u)), p.2)
      else (some (.num 0), some .unsupportedFunction)
  | .op c l r, dv, s =>
    if c = '+' ∨ c = '-' then
      let p1 := derivNode l dv s
      let p2 := derivNode r dv p1.2
      match p1.1, p2.1 with
      | some dl, some dr => (some (.op c dl dr), p2.2)
      | _, _ => (none, p2.2)
    else if c = '*' then
      let p1 := derivNode l dv s
      let p2 := derivNode r dv p1.2
      match p1.1, p2.1 with
      | some du, some dvr =>
        (some (.op '+' (.op '*' du (cloneTree r)) (.op '*' (cloneTree l) dvr)), p2.2)
      | _, _ => (none, p2.2)
    else if c = '/' then
      let p1 := derivNode l dv s
      let p2 := derivNode r dv p1.2
      match p1.1, p2.1 with
      | some du, some dvr =>
        (some (.op '/' (.op '-' (.op '*' du (cloneTree r)) (.op '*' (cloneTree l) dvr))
          (.op '^' (cloneTree r) (.num 2))), p2.2)
      | _, _ => (none, p2.2)
    else if c = '^' then
      let p1 := derivNode l dv s
      let p2 := derivNode r dv p1.2
      match p1.1, p2.1 with
      | some du, some dvr =>
        match r with
        | .num n =>
          if fabs n < eps then (some (.num 0), p2.2)
          else if fabs (n - 1) < eps then (some du, p2.2)
          else
            (some (.op '*' (.op '*' (.num n) (.op '^' (cloneTree l) (.num (n - 1)))) du), p2.2)
        | _ =>
          (some (.op '*' (.op '^' (cloneTree l) (cloneTree r))
            (.op '+' (.op '*' dvr (.fn 'l' (cloneTree l)))
              (.op '*' (cloneTree r) (.op '/' du (cloneTree l))))), p2.2)
      | _, _ => (some (.num 0), p2.2)
    else (none, some .unsupportedOperator)

/-- `ExprTree`: a root node (null = empty tree) plus the cached postfix
and infix text.  `toInfix` itself is presentation-only and not referenced
by any claim, so the cache content is tracked but never recomputed. -/
structure ExprTree where
  root : Option Node := none
  postfixRaw : List Char := []
  infixCache : List Char := []
deriving DecidableEq, Repr

/-- `DerivativeTree`: wraps `derivNode` on the root; empty input reports
"空表达式"; a null result from `derivNode` leaves the output tree
empty. -/
def DerivativeTree (T : ExprTree) (dv : Char) : ExprTree × Option DerivErr :=
  match T.root with
  | none => ({}, some .emptyExpression)
  | some t =>
    match derivNode t dv none with
    | (none, s) => ({}, s)
    | (some d, s) => ({ root := some d, postfixRaw := "<derivative>".toList }, s)

/-- Compose failures; constructors enumerate the two error strings
("P 不是合法二元运算符", "E1 或 E2 为空"). -/
inductive ComposeErr where
  | invalidOperator
  | emptyOperand
deriving DecidableEq, Repr

/-- `Compose`: builds `(E1) c (E2)` from deep copies of both roots;
invalid operator is checked before emptiness. -/
def Compose (E1 E2 : ExprTree) (c : Char) : ExprTree × Option ComposeErr :=
  if !isOp c then ({}, some .invalidOperator)
  else
    match E1.root, E2.root with
    | some a, some b =>
      ({ root := some (.op c (cloneTree a) (cloneTree b)),
         postfixRaw := E1.postfixRaw ++ E2.postfixRaw ++ [c] }, none)
    | _, _ => ({}, some .emptyOperand)

/-- `extractCoefAndBase`: coefficient/base decomposition of an additive
term (`base * Number` / `Number * base` → that pair; a bare `Number` →
no base; anything else → coefficient 1). -/
def extractCoefAndBase : Node → Option Node × ℚ
  | .num v => (none, v)
  | .op '*' a b =>
    match isNumLeaf a, isNumLeaf b with
    | none, some rv => (some a, rv)
    | some lv, none => (some b, lv)
    | _, _ => (some (.op '*' a b), 1)
  | t => (some t, 1)

/-- `collectAddTerms`: flatten a maximal chain of '+' nodes, in
left-to-right visit order. -/
def collectAddTerms : Node → List Node
  | .op '+' l r => collectAddTerms l ++ collectAddTerms r
  | t => [t]

/-- `collectMulTerms`: flatten a maximal chain of '*' nodes. -/
def collectMulTerms : Node → List Node
  | .op '*' l r => collectMulTerms l ++ collectMulTerms r
  | t => [t]

/-- Base equality used when grouping additive terms: both bases absent,
or both present and structurally equal. -/
def baseEq : Option Node → Option Node → Bool
  | none, none => true
  | some a, some b => treesEqual a b
  | _, _ => false

/-- One step of the used-flag grouping loop of the '+' rule: a term is
absorbed into the (unique, first-occurrence) group whose representative
base matches its own, else it opens a new group at the end.  Folding
this over the term list visits terms and sums coefficients in exactly
the order of the C++ nested `i`/`j` loops with `used` flags (both
always compare against the group's first-occurrence representative). -/
def addToGroups : List (Option Node × ℚ) → (Option Node × ℚ) → List (Option Node × ℚ)
  | [], q => [q]
  | g :: gs, q =>
    if baseEq g.1 q.1 then (g.1, g.2 + q.2) :: gs else g :: addToGroups gs q

/-- The grouping loop of the '+' aggregation rule. -/
def groupAdd (infos : List (Option Node × ℚ)) : List (Option Node × ℚ) :=
  infos.foldl addToGroups []

/-- One step of the used-flag counting loop of the '*' rule (same
first-occurrence discipline as `addToGroups`). -/
def addToCounts : List (Node × Nat) → Node → List (Node × Nat)
  | [], f => [(f, 1)]
  | g :: gs, f =>
    if treesEqual g.1 f then (g.1, g.2 + 1) :: gs else g :: addToCounts gs f

/-- The factor-counting loop of the '*' aggregation rule. -/
def groupMul (fs : List Node) : List (Node × Nat) :=
  fs.foldl addToCounts []

/-- Left-fold accumulator for rebuilding a chain under a given operator
(`result = result ? makeOp(c, result, term) : term`). -/
def chainWith (c : Char) : Option Node → Node → Option Node
  | none, t => some t
  | some acc, t => some (.op c acc t)

/-- The rebuild loop of the '+' aggregation rule: a group with no base
becomes a bare number (even if the sum is 0), a coefficient within
1e-12 of 1 keeps a clone of the base, a coefficient within 1e-12 of 0
is dropped, anything else becomes `clone(base) * coefficient`. -/
def rebuildAdd : List (Option Node × ℚ) → Option Node → Option Node
  | [], acc => acc
  | (none, co) :: rest, acc => rebuildAdd rest (chainWith '+' acc (.num co))
  | (some b, co) :: rest, acc =>
    if fabs (co - 1) < eps then rebuildAdd rest (chainWith '+' acc (cloneTree b))
    else if fabs co < eps then rebuildAdd rest acc
    else rebuildAdd rest (chainWith '+' acc (.op '*' (cloneTree b) (.num co)))

/-- The rebuild loop of the '*' aggregation rule: a factor with count 1
keeps a clone, otherwise `clone(factor) ^ count`. -/
def rebuildMul : List (Node × Nat) → Option Node → Option Node
  | [], acc => acc
  | (f, cnt) :: rest, acc =>
    rebuildMul rest (chainWith '*' acc
      (if cnt = 1 then cloneTree f else .op '^' (cloneTree f) (.num (cnt : ℚ))))

/-- The unary constant-fold step of `simplifyNode` (argument already
simplified): a numeric argument folds through the function, except `ln`
of a non-positive value, which keeps the node symbolic; unknown codes
keep the node. -/
def fnPost (F : TOps) (c : Char) (u : Node) : Node :=
  match isNumLeaf u with
  | some v =>
    match c with
    | 's' => .num (F.sin v)
    | 'c' => .num (F.cos v)
    | 't' => .num (F.tan v)
    | 'l' => if 0 < v then .num (F.log v) else .fn c u
    | _ => .fn c u
  | none => .fn c u

/-- The binary constant fold of `simplifyNode`: `none` means the fold is
skipped ('/' with |divisor| < 1e-12, or an unknown operator). -/
def foldBinary (F : TOps) (c : Char) (lv rv : ℚ) : Option ℚ :=
  match c with
  | '+' => some (lv + rv)
  | '-' => some (lv - rv)
  | '*' => some (lv * rv)
  | '/' => if fabs rv < eps then none else some (lv / rv)
  | '^' => some (F.pow lv rv)
  | _ => none

/-- The identity-elimination rules of `simplifyNode`, in the code's
order; `none` means no identity applies. -/
def identStep (c : Char) (l r : Node) : Option Node :=
  let lz := match isNumLeaf l with | some v => decide (fabs v < eps) | none => false
  let rz := match isNumLeaf r with | some v => decide (fabs v < eps) | none => false
  let lo := match isNumLeaf l with | some v => decide (fabs (v - 1) < eps) | none => false
  let ro := match isNumLeaf r with | some v => decide (fabs (v - 1) < eps) | none => false
  if c = '+' then (if rz then some l else if lz then some r else none)
  else if c = '-' then (if rz then some l else none)
  else if c = '*' then
    (if rz || lz then some (.num 0)
     else if ro then some l
     else if lo then some r
     else none)
  else if c = '/' then (if ro then some l else none)
  else if c = '^' then
    (if rz then some (.num 1) else if ro then some l else none)
  else none

/-- The additive like-term aggregation of `simplifyNode` on a '+' node
with (already simplified) children `l`, `r`: `some result` iff grouping
strictly reduced the term count, where `result` is the rebuilt sum that
the code then re-simplifies. -/
def addAggStep (l r : Node) : Option Node :=
  let terms := collectAddTerms (.op '+' l r)
  if 2 ≤ terms.length then
    let grouped := groupAdd (terms.map extractCoefAndBase)
    if grouped.length < terms.length then
      some ((rebuildAdd grouped none).getD (.num 0))
    else none
  else none

/-- Result of one rewrite decision at a binary node: `done` = return the
tree as is, `again` = the code calls `simplifyNode` again on the rebuilt
tree. -/
inductive StepRes where
  | done (t : Node)
  | again (t : Node)
deriving DecidableEq, Repr

/-- The multiplicative like-factor aggregation of `simplifyNode` on a
'*' node: numeric factors fold into one product; `some` iff a numeric
merge or a factor merge happened.  A zero product collapses to
`Number(0)` immediately (no re-simplification), otherwise the rebuilt
product is re-simplified. -/
def mulAggStep (l r : Node) : Option StepRes :=
  let factors := collectMulTerms (.op '*' l r)
  if 2 ≤ factors.length then
    let numProduct := (factors.filterMap isNumLeaf).foldl (· * ·) 1
    let nonNum := factors.filter fun f => (isNumLeaf f).isNone
    let grouped := groupMul nonNum
    let expected := nonNum.length + (if eps ≤ fabs (numProduct - 1) then 1 else 0)
    if expected < factors.length ∨ grouped.length < nonNum.length then
      if fabs numProduct < eps then some (.done (.num 0))
      else
        let init : Option Node :=
          if eps ≤ fabs (numProduct - 1) then some (.num numProduct) else none
        some (.again ((rebuildMul grouped init).getD (.num numProduct)))
    else none
  else none

/-- The rewrite decision after the binary constant fold did not apply:
'+' term aggregation, '*' factor aggregation, then identity
elimination, else keep the node. -/
def stepNoFold (c : Char) (l r : Node) : StepRes :=
  if c = '+' then
    match addAggStep l r with
    | some t => .again t
    | none =>
      match identStep c l r with
      | some t => .done t
      | none => .done (.op c l r)
  else if c = '*' then
    match mulAggStep l r with
    | some res => res
    | none =>
      match identStep c l r with
      | some t => .done t
      | none => .done (.op c l r)
  else
    match identStep c l r with
    | some t => .done t
    | none => .done (.op c l r)

/-- The rewrite decision `simplifyNode` makes at a binary node whose
children are already simplified, in the code's priority order: the
binary constant fold first, and on fold failure or non-constant
operands the remaining rules via `stepNoFold`. -/
def step (F : TOps) (c : Char) (l r : Node) : StepRes :=
  match isNumLeaf l, isNumLeaf r with
  | some lv, some rv =>
    match foldBinary F c lv rv with
    | some v => .done (.num v)
    | none => stepNoFold c l r
  | _, _ => stepNoFold c l r

/-- `simplifyNode`, with an explicit fuel argument making the recursion
on freshly rebuilt trees well-founded: every C++ recursive call costs
one unit, and `none` means the fuel ran out before the C++ recursion
finished.  `simplifyF F n T = some R` states that the C++ computation
terminates with result `R` (theorems about `simplifyNode` quantify over
the fuel, and `simplifyF_mono` below shows the result is independent of
it). -/
def simplifyF (F : TOps) : Nat → Node → Option Node
  | 0, _ => none
  | _ + 1, .num v => some (.num v)
  | _ + 1, .var c => some (.var c)
  | n + 1, .fn c u => (simplifyF F n u).map (fnPost F c)
  | n + 1, .op c l r => do
    let l2 ← simplifyF F n l
    let r2 ← simplifyF F n r
    match step F c l2 r2 with
    | .done t => some t
    | .again t => simplifyF F n t

theorem fabs_nonneg (x : ℚ) : 0 ≤ fabs x := by
  unfold fabs; split <;> linarith

theorem fabs_zero : fabs 0 = 0 := by simp [fabs]

theorem cloneTree_id (T : Node) : cloneTree T = T := by
  induction T with
  | num v => rfl
  | var c => rfl
  | fn c u ih => simp [cloneTree, ih]
  | op c l r ih1 ih2 => simp [cloneTree, ih1, ih2]

theorem treesEqual_refl (T : Node) : treesEqual T T = true := by
  induction T with
  | num v =>
    simp only [treesEqual, sub_self]
    rw [fabs_zero]
    exact decide_eq_true eps_pos
  | var c => simp [treesEqual]
  | fn c u ih => simp [treesEqual, ih]
  | op c l r ih1 ih2 => simp [treesEqual, ih1, ih2]

/-- C10: `cloneTree` produces a tree structurally equal to its input —
in this value-level embedding the deep copy (a fresh constructor at
every node, mirroring the fresh `new Node()` the C++ allocates at every
node, which is what "shares no node" means there) reproduces the tree
exactly, and `treesEqual` accepts the copy. -/
theorem clone_structural_eq (T : Node) :
    cloneTree T = T ∧ treesEqual (cloneTree T) T = true :=
  ⟨cloneTree_id T, by rw [cloneTree_id]; exact treesEqual_refl T⟩

/-- C2 (amended): the postfix serializer renders a `UnaryFunc` node as
the child's rendering followed by the function's full *name*
("sin"/"cos"/"tan"/"ln" via `funcNameFromCode`), not a single-letter
code. -/
theorem postfix_unary_emits_name :
    (∀ (fmt : ℚ → List Char) (u : Node) (c : Char),
      postfixOfNode fmt (.fn c u) = postfixOfNode fmt u ++ funcNameFromCode c) ∧
    funcNameFromCode 's' = "sin".toList ∧ funcNameFromCode 'c' = "cos".toList ∧
    funcNameFromCode 't' = "tan".toList ∧ funcNameFromCode 'l' = "ln".toList :=
  ⟨fun _ _ _ => rfl, rfl, rfl, rfl, rfl⟩

/-- C2 counterexample: `sin(a)` serializes to "asin", not to the
child-plus-single-letter-code "as" the claim describes. -/
theorem postfix_unary_letter_cex :
    postfixOfNode (fun _ => []) (.fn 's' (.var 'a')) = ['a', 's', 'i', 'n'] ∧
    postfixOfNode (fun _ => []) (.fn 's' (.var 'a')) ≠ ['a', 's'] := by
  exact ⟨by decide, by decide⟩

/-- C4: with the children's values in hand, `eval` fails `DomainError`
on `ln` exactly when the argument is ≤ 0 and otherwise returns the
logarithm; fails `DivisionByZero` on '/' exactly when the divisor is
within 1e-12 of 0 and otherwise returns the quotient; and applies the
power primitive on '^' with no additional guard. -/
theorem eval_guards (F : TOps) (env : Char → Option ℚ) (u l r : Node) (x y z : ℚ)
    (hu : evalNode F env u = .ok x) (hl : evalNode F env l = .ok y)
    (hr : evalNode F env r = .ok z) :
    ((evalNode F env (.fn 'l' u) = .error .lnDomain ↔ x ≤ 0) ∧
      (¬ x ≤ 0 → evalNode F env (.fn 'l' u) = .ok (F.log x))) ∧
    ((evalNode F env (.op '/' l r) = .error .divisionByZero ↔ fabs z < eps) ∧
      (¬ fabs z < eps → evalNode F env (.op '/' l r) = .ok (y / z))) ∧
    evalNode F env (.op '^' l r) = .ok (F.pow y z) := by
  refine ⟨⟨?_, ?_⟩, ⟨?_, ?_⟩, ?_⟩ <;>
    simp only [evalNode, hu, hl, hr, bind, Except.bind] <;>
    (try split) <;> simp_all

/-- Closed instance of `eval_guards`. -/
theorem eval_guards_witness :
    ((evalNode tOps0 (fun _ => none) (.fn 'l' (.num (-1))) = .error .lnDomain ↔ (-1 : ℚ) ≤ 0) ∧
      (¬ (-1 : ℚ) ≤ 0 → evalNode tOps0 (fun _ => none) (.fn 'l' (.num (-1))) = .ok (tOps0.log (-1)))) ∧
    ((evalNode tOps0 (fun _ => none) (.op '/' (.num 3) (.num 2)) = .error .divisionByZero ↔
        fabs 2 < eps) ∧
      (¬ fabs 2 < eps →
        evalNode tOps0 (fun _ => none) (.op '/' (.num 3) (.num 2)) = .ok (3 / 2))) ∧
    evalNode tOps0 (fun _ => none) (.op '^' (.num 3) (.num 2)) = .ok (tOps0.pow 3 2) :=
  eval_guards tOps0 (fun _ => none) (.num (-1)) (.num 3) (.num 2) (-1) 3 2 rfl rfl rfl

/-- C8 (amended): for `u ^ Number(n)`, once the derivative of `u` has
been computed, the code discards the exponent's derivative and returns
`Number(0)` when `|n| < 1e-12`, `du` when `|n - 1| < 1e-12`, and
otherwise the left-nested product `(n * clone(u)^(n-1)) * du` built on a
deep copy of `u` (the claim's exact `n==0` / `n==1` tests are actually
1e-12 tolerance tests). -/
theorem deriv_pow_const_exponent (u : Node) (n : ℚ) (dv : Char)
    (s s1 : Option DerivErr) (du : Node)
    (hdu : derivNode u dv s = (some du, s1)) :
    derivNode (.op '^' u (.num n)) dv s =
      (some (if fabs n < eps then .num 0
        else if fabs (n - 1) < eps then du
        else .op '*' (.op '*' (.num n) (.op '^' (cloneTree u) (.num (n - 1)))) du), s1) := by
  simp only [derivNode, hdu]
  rw [if_neg (by decide), if_neg (by decide), if_neg (by decide), if_pos trivial]
  split <;> [rfl; (split <;> rfl)]

/-- Closed instance of `deriv_pow_const_exponent`:
d/dx (x^3) = (3 * x^2) * 1. -/
theorem deriv_pow_const_exponent_witness :
    derivNode (.op '^' (.var 'x') (.num 3)) 'x' none =
      (some (.op '*' (.op '*' (.num 3) (.op '^' (.var 'x') (.num 2))) (.num 1)), none) := by
  have h := deriv_pow_const_exponent (.var 'x') 3 'x' none none (.num 1) rfl
  rw [h]
  norm_num [fabs, eps_val, cloneTree]

/-- C8 counterexample: at the exponent n = 1e-13 (so n ≠ 0 and n ≠ 1,
where the claim demands the `n * u^(n-1) * du` form) the code's 1e-12
tolerance kicks in and the derivative of `x ^ n` is `Number(0)`
instead. -/
theorem deriv_pow_tiny_exponent_cex :
    derivNode (.op '^' (.var 'x') (.num (mkRat 1 10000000000000))) 'x' none =
      (some (.num 0), none) ∧
    mkRat 1 10000000000000 ≠ (0 : ℚ) ∧ mkRat 1 10000000000000 ≠ (1 : ℚ) ∧
    Node.num 0 ≠
      .op '*' (.op '*' (.num (mkRat 1 10000000000000))
        (.op '^' (cloneTree (.var 'x')) (.num (mkRat 1 10000000000000 - 1)))) (.num 1) := by
  exact ⟨by decide, by decide, by decide, by decide⟩

/-- C9 (amended): `Compose` reports `InvalidOperator` exactly when the
operator is not one of `+ - * / ^`; it reports `EmptyOperand` exactly
when the operator is valid *and* an input tree is empty (the invalid
operator check comes first); with a valid operator and two non-empty
inputs it returns `BinaryOp(op, clone(A.root), clone(B.root))` with no
error.  The inputs are taken by value here, so they are untouched by
construction (the C++ takes them by const reference). -/
theorem Compose_spec (A B : ExprTree) (c : Char) :
    ((Compose A B c).2 = some .invalidOperator ↔ isOp c = false) ∧
    ((Compose A B c).2 = some .emptyOperand ↔
      (isOp c = true ∧ (A.root = none ∨ B.root = none))) ∧
    (∀ a b, A.root = some a → B.root = some b → isOp c = true →
      (Compose A B c).1.root = some (.op c (cloneTree a) (cloneTree b)) ∧
        (Compose A B c).2 = none) := by
  unfold Compose
  cases hop : isOp c with
  | false =>
    simp only [hop, Bool.not_false, if_true]
    refine ⟨by simp, by simp, ?_⟩
    intro a b _ _ hc
    exact absurd hc (by simp [hop])
  | true =>
    simp only [hop, Bool.not_true, if_false]
    cases hA : A.root with
    | none =>
      cases hB : B.root <;> simp
    | some a =>
      cases hB : B.root with
      | none => simp
      | some b => simp

/-- Closed instance of `Compose_spec`: composing `a` and `2` under '+'
yields `BinaryOp('+', a, 2)` and no error. -/
theorem Compose_spec_witness :
    (Compose ⟨some (.var 'a'), [], []⟩ ⟨some (.num 2), [], []⟩ '+').1.root =
        some (.op '+' (cloneTree (.var 'a')) (cloneTree (.num 2))) ∧
      (Compose ⟨some (.var 'a'), [], []⟩ ⟨some (.num 2), [], []⟩ '+').2 = none :=
  (Compose_spec ⟨some (.var 'a'), [], []⟩ ⟨some (.num 2), [], []⟩ '+').2.2
    (.var 'a') (.num 2) rfl rfl (by decide)

/-- C9 counterexample: with `A` empty and the invalid operator '%',
`Compose` reports `InvalidOperator` — not `EmptyOperand`, although "A or
B is empty" holds — refuting the claim's unqualified "fails with
EmptyOperand iff A or B is empty". -/
theorem Compose_error_precedence_cex :
    (Compose ⟨none, [], []⟩ ⟨some (.var 'a'), [], []⟩ '%').2 = some .invalidOperator ∧
    (⟨none, [], []⟩ : ExprTree).root = none ∧
    some ComposeErr.invalidOperator ≠ some ComposeErr.emptyOperand := by
  exact ⟨by decide, by decide, by decide⟩

/-- All binary-operator codes in the tree are drawn from the closed set
`+ - * / ^` (the data-model invariant; nodes with other codes cannot be
produced by the parser or the algebraic constructors). -/
def wfOps : Node → Bool
  | .num _ => true
  | .var _ => true
  | .fn _ u => wfOps u
  | .op c l r => isOp c && wfOps l && wfOps r

/-- Some `UnaryFunc` node of the tree carries a code outside
sin/cos/tan/ln. -/
def hasBadFunc : Node → Bool
  | .num _ => false
  | .var _ => false
  | .fn c u => !(c == 's' || c == 'c' || c == 't' || c == 'l') || hasBadFunc u
  | .op _ l r => hasBadFunc l || hasBadFunc r

/-- On trees whose operator codes are all valid, `derivNode` always
returns a result tree (never the C++ `nullptr`). -/
theorem derivNode_fst_isSome :
    ∀ (T : Node) (dv : Char) (s : Option DerivErr),
      wfOps T = true → (derivNode T dv s).1.isSome = true := by
  intro T
  induction T with
  | num v => intro dv s _; rfl
  | var c => intro dv s _; rfl
  | fn c u ih =>
    intro dv s hwf
    rw [show wfOps (.fn c u) = wfOps u from rfl] at hwf
    obtain ⟨du, hdu⟩ := Option.isSome_iff_exists.mp (ih dv s hwf)
    simp only [derivNode, hdu]
    repeat' first | rfl | split
  | op c l r ihl ihr =>
    intro dv s hwf
    simp only [wfOps, Bool.and_eq_true] at hwf
    obtain ⟨⟨hc, hwl⟩, hwr⟩ := hwf
    obtain ⟨dl, hdl⟩ := Option.isSome_iff_exists.mp (ihl dv s hwl)
    obtain ⟨dr, hdr⟩ :=
      Option.isSome_iff_exists.mp (ihr dv (derivNode l dv s).2 hwr)
    simp only [derivNode, hdl, hdr]
    repeat' first | rfl | split
    simp only [isOp, Bool.or_eq_true, beq_iff_eq] at hc
    tauto

/-- On trees with valid operator codes and no unsupported function
code, `derivNode` leaves the error slot untouched. -/
theorem derivNode_snd_clean :
    ∀ (T : Node) (dv : Char) (s : Option DerivErr),
      wfOps T = true → hasBadFunc T = false → (derivNode T dv s).2 = s := by
  intro T
  induction T with
  | num v => intro dv s _ _; rfl
  | var c => intro dv s _ _; rfl
  | fn c u ih =>
    intro dv s hwf hb
    rw [show wfOps (.fn c u) = wfOps u from rfl] at hwf
    simp only [hasBadFunc, Bool.or_eq_false_iff, Bool.not_eq_false'] at hb
    obtain ⟨hgood, hbu⟩ := hb
    have h2 := ih dv s hwf hbu
    simp only [derivNode, h2]
    cases hp : (derivNode u dv s).1 with
    | none => rfl
    | some du =>
      repeat' first | rfl | split
      simp only [Bool.or_eq_true, beq_iff_eq] at hgood
      tauto
  | op c l r ihl ihr =>
    intro dv s hwf hb
    simp only [wfOps, Bool.and_eq_true] at hwf
    obtain ⟨⟨hc, hwl⟩, hwr⟩ := hwf
    simp only [hasBadFunc, Bool.or_eq_false_iff] at hb
    obtain ⟨hbl, hbr⟩ := hb
    have h1 := ihl dv s hwl hbl
    have h2 := ihr dv s hwr hbr
    obtain ⟨dl, hdl⟩ := Option.isSome_iff_exists.mp (derivNode_fst_isSome l dv s hwl)
    obtain ⟨dr, hdr⟩ := Option.isSome_iff_exists.mp (derivNode_fst_isSome r dv s hwr)
    simp only [derivNode, h1, hdl, hdr, h2]
    repeat' first | rfl | split
    simp only [isOp, Bool.or_eq_true, beq_iff_eq] at hc
    tauto

/-- On trees with valid operator codes containing at least one
unsupported function code, `derivNode` ends with the
"不支持的函数求导" (UnsupportedFunction) message in the error slot. -/
theorem derivNode_snd_bad :
    ∀ (T : Node) (dv : Char) (s : Option DerivErr),
      wfOps T = true → hasBadFunc T = true →
      (derivNode T dv s).2 = some .unsupportedFunction := by
  intro T
  induction T with
  | num v => intro dv s _ hb; exact absurd hb (by simp [hasBadFunc])
  | var c => intro dv s _ hb; exact absurd hb (by simp [hasBadFunc])
  | fn c u ih =>
    intro dv s hwf hb
    rw [show wfOps (.fn c u) = wfOps u from rfl] at hwf
    obtain ⟨du, hdu⟩ := Option.isSome_iff_exists.mp (derivNode_fst_isSome u dv s hwf)
    cases hgs : (c == 's' || c == 'c' || c == 't' || c == 'l') with
    | false =>
      simp only [Bool.or_eq_false_iff, beq_eq_false_iff_ne, ne_eq] at hgs
      obtain ⟨⟨⟨h1, h2⟩, h3⟩, h4⟩ := hgs
      simp only [derivNode, hdu]
      rw [if_neg h1, if_neg h2, if_neg h3, if_neg h4]
    | true =>
      have hbu : hasBadFunc u = true := by
        simp only [hasBadFunc, hgs, Bool.not_true, Bool.false_or] at hb
        exact hb
      have h2 := ih dv s hwf hbu
      simp only [derivNode, hdu, h2]
      repeat' first | rfl | split
  | op c l r ihl ihr =>
    intro dv s hwf hb
    simp only [wfOps, Bool.and_eq_true] at hwf
    obtain ⟨⟨hc, hwl⟩, hwr⟩ := hwf
    obtain ⟨dl, hdl⟩ := Option.isSome_iff_exists.mp (derivNode_fst_isSome l dv s hwl)
    simp only [hasBadFunc, Bool.or_eq_true] at hb
    cases hbr : hasBadFunc r with
    | true =>
      obtain ⟨dr, hdr⟩ := Option.isSome_iff_exists.mp
        (derivNode_fst_isSome r dv (derivNode l dv s).2 hwr)
      have h2 := ihr dv (derivNode l dv s).2 hwr hbr
      simp only [derivNode, hdl, hdr, h2]
      repeat' first | rfl | split
      simp only [isOp, Bool.or_eq_true, beq_iff_eq] at hc
      tauto
    | false =>
      have hbl : hasBadFunc l = true := by
        rcases hb with hb | hb
        · exact hb
        · exact absurd hb (by simp [hbr])
      have h1 := ihl dv s hwl hbl
      have h2 := derivNode_snd_clean r dv (some .unsupportedFunction) hwr hbr
      obtain ⟨dr, hdr⟩ := Option.isSome_iff_exists.mp
        (derivNode_fst_isSome r dv (some .unsupportedFunction) hwr)
      simp only [derivNode, h1, hdl, hdr, h2]
      repeat' first | rfl | split
      simp only [isOp, Bool.or_eq_true, beq_iff_eq] at hc
      tauto

/-- C3 (amended): on any tree (with valid operator codes) containing a
`UnaryFunc` whose code is not one of sin/cos/tan/ln, `DerivativeTree`
reports the `UnsupportedFunction` error — but it nevertheless also
returns a result tree (the unsupported node's derivative is taken to be
`Number(0)`), rather than only the error. -/
theorem deriv_unsupported_function (T : ExprTree) (t : Node) (dv : Char)
    (hroot : T.root = some t) (hwf : wfOps t = true) (hbad : hasBadFunc t = true) :
    (DerivativeTree T dv).2 = some .unsupportedFunction ∧
      (DerivativeTree T dv).1.root.isSome = true := by
  obtain ⟨d, hd⟩ := Option.isSome_iff_exists.mp (derivNode_fst_isSome t dv none hwf)
  have hs := derivNode_snd_bad t dv none hwf hbad
  have hder : derivNode t dv none = (some d, some .unsupportedFunction) :=
    Prod.ext_iff.mpr ⟨hd, hs⟩
  simp [DerivativeTree, hroot, hder]

/-- Closed instance of `deriv_unsupported_function` at the tree
`q(x)` with unknown function code 'q'. -/
theorem deriv_unsupported_function_witness :
    (DerivativeTree ⟨some (.fn 'q' (.var 'x')), [], []⟩ 'x').2 =
        some .unsupportedFunction ∧
      (DerivativeTree ⟨some (.fn 'q' (.var 'x')), [], []⟩ 'x').1.root.isSome = true :=
  deriv_unsupported_function ⟨some (.fn 'q' (.var 'x')), [], []⟩ (.fn 'q' (.var 'x'))
    'x' rfl (by decide) (by decide)

/-- C3 counterexample: for the tree `q(x)` (unknown function code 'q'),
the claim says the derivative returns the error and no result tree; the
code returns the result tree `Number(0)` (the GUI caller, which checks
only the root pointer, even treats this as success). -/
theorem deriv_unsupported_returns_tree_cex :
    hasBadFunc (.fn 'q' (.var 'x')) = true ∧
    (DerivativeTree ⟨some (.fn 'q' (.var 'x')), [], []⟩ 'x').1.root = some (.num 0) := by
  exact ⟨by decide, by decide⟩

/-- Trees for which the postfix round trip can be stated: numeric leaves
are integers in [0,9], variables are lowercase letters, operator codes
are valid — and no `UnaryFunc` node occurs (see the counterexample: the
serializer writes function *names*, which the parser reads back as a
run of variable tokens). -/
def rtSafe : Node → Bool
  | .num v => decide (v.den = 1 ∧ 0 ≤ v ∧ v ≤ 9)
  | .var c => decide (97 ≤ c.toNat ∧ c.toNat ≤ 122)
  | .fn _ _ => false
  | .op c l r => isOp c && rtSafe l && rtSafe r

theorem char_toNat_ofNat_small (n : ℕ) (h : n < 128) : (Char.ofNat n).toNat = n := by
  have hv : n.isValidChar := Or.inl (by omega)
  simp [Char.ofNat, hv, Char.toNat, Char.ofNatAux, UInt32.toNat, BitVec.toNat_ofNatLt]

/-- Parsing the serialization of a round-trip-safe tree pushes exactly
that tree onto the operand stack. -/
theorem parseRun_append (fmt : ℚ → List Char) :
    ∀ T : Node, rtSafe T = true →
      ∀ (cs : List Char) (st : List Node),
        parseRun (postfixOfNode fmt T ++ cs) st = parseRun cs (T :: st) := by
  intro T
  induction T with
  | num v =>
    intro h cs st
    simp only [rtSafe, decide_eq_true_eq] at h
    obtain ⟨hden, h0, h9⟩ := h
    have hnum : (v.num : ℚ) = v := by
      have hd := Rat.num_div_den v
      rw [hden] at hd
      simpa using hd
    have hn0 : 0 ≤ v.num := Rat.num_nonneg.mpr h0
    have hn9 : v.num ≤ 9 := by
      have h2 : (v.num : ℚ) ≤ 9 := by rw [hnum]; exact h9
      exact_mod_cast h2
    have hk9 : v.num.toNat ≤ 9 := by omega
    have ht : (Char.ofNat (48 + v.num.toNat)).toNat = 48 + v.num.toNat :=
      char_toNat_ofNat_small _ (by omega)
    simp only [postfixOfNode,
      if_pos (show v.den = 1 ∧ 0 ≤ v ∧ v ≤ 9 from ⟨hden, h0, h9⟩)]
    simp only [List.cons_append, List.nil_append, parseRun, ht]
    rw [if_neg (by omega), if_pos (by omega)]
    have hval : ((48 + v.num.toNat - 48 : ℕ) : ℚ) = v := by
      have h1 : (48 + v.num.toNat - 48 : ℕ) = v.num.toNat := by omega
      rw [h1, ← hnum]
      exact_mod_cast congrArg (fun z : ℤ => (z : ℚ)) (Int.toNat_of_nonneg hn0)
    rw [hval]
    rfl
  | var c =>
    intro h cs st
    simp only [rtSafe, decide_eq_true_eq] at h
    simp only [postfixOfNode, List.cons_append, List.nil_append, parseRun]
    rw [if_neg (by omega), if_neg (by omega), if_pos (by omega)]
    rfl
  | fn c u ih => intro h cs st; simp [rtSafe] at h
  | op c l r ihl ihr =>
    intro h cs st
    simp only [rtSafe, Bool.and_eq_true] at h
    obtain ⟨⟨hc, hl⟩, hr⟩ := h
    simp only [postfixOfNode, List.append_assoc, List.cons_append, List.nil_append]
    rw [ihl hl, ihr hr]
    simp only [isOp, Bool.or_eq_true, beq_iff_eq] at hc
    rcases hc with (((rfl | rfl) | rfl) | rfl) | rfl <;>
      · simp only [parseRun]
        rw [if_neg (by decide), if_neg (by decide), if_neg (by decide),
          if_pos (by decide)]

/-- C1 (amended): for trees whose numeric leaves are integers in [0,9],
whose variables are lowercase letters, whose operator codes are valid,
and which contain no `UnaryFunc` node, parsing the postfix serialization
returns the tree itself (hence a structurally equal tree).  The
`UnaryFunc` exclusion is forced by `roundtrip_unaryFunc_cex`. -/
theorem roundtrip_build_of_serialize (fmt : ℚ → List Char) (T : Node)
    (h : rtSafe T = true) :
    buildFromPostfixChars (postfixOfNode fmt T) = .ok T := by
  have h2 := parseRun_append fmt T h [] []
  rw [List.append_nil] at h2
  unfold buildFromPostfixChars
  rw [h2]
  rfl

/-- Closed instance of `roundtrip_build_of_serialize` on the tree
`2 x +`. -/
theorem roundtrip_build_of_serialize_witness :
    rtSafe (.op '+' (.num 2) (.var 'x')) = true ∧
    buildFromPostfixChars (postfixOfNode (fun _ => []) (.op '+' (.num 2) (.var 'x'))) =
      .ok (.op '+' (.num 2) (.var 'x')) :=
  ⟨by decide, roundtrip_build_of_serialize (fun _ => []) _ (by decide)⟩

/-- C1 counterexample: the tree `ln(a)` (all its numeric leaves — there
are none — are integers in [0,9]) serializes to "aln"; the parser reads
the three characters back as three variable leaves, ends with a stack of
size 3 and reports `MalformedExpression` instead of reproducing the
tree, so the round trip fails for `UnaryFunc` nodes. -/
theorem roundtrip_unaryFunc_cex :
    postfixOfNode (fun _ => []) (.fn 'l' (.var 'a')) = ['a', 'l', 'n'] ∧
    buildFromPostfixChars (postfixOfNode (fun _ => []) (.fn 'l' (.var 'a'))) =
      .error .malformedExpression := by
  exact ⟨by decide, by rfl⟩

theorem simplifyF_fn (F : TOps) (k : Nat) (c : Char) (u : Node) :
    simplifyF F (k + 1) (.fn c u) = (simplifyF F k u).map (fnPost F c) := rfl

theorem simplifyF_op (F : TOps) (k : Nat) (c : Char) (l r : Node) :
    simplifyF F (k + 1) (.op c l r) =
      (simplifyF F k l).bind fun l2 =>
        (simplifyF F k r).bind fun r2 =>
          match step F c l2 r2 with
          | .done t => some t
          | .again t => simplifyF F k t := rfl

/-- One more unit of fuel never changes a completed simplification. -/
theorem simplifyF_succ {F : TOps} :
    ∀ {n : Nat} {T R : Node}, simplifyF F n T = some R →
      simplifyF F (n + 1) T = some R := by
  intro n
  induction n with
  | zero => intro T R h; simp [simplifyF] at h
  | succ k ih =>
    intro T R h
    match T with
    | .num v => exact h
    | .var c => exact h
    | .fn c u =>
      rw [simplifyF_fn] at h
      rcases Option.map_eq_some'.mp h with ⟨u2, hu, hR⟩
      rw [simplifyF_fn, ih hu]
      simp [hR]
    | .op c l r =>
      rw [simplifyF_op] at h
      rw [simplifyF_op]
      cases hl : simplifyF F k l with
      | none => rw [hl] at h; exact absurd h (by simp)
      | some l2 =>
        rw [hl] at h
        rw [ih hl]
        cases hr : simplifyF F k r with
        | none => rw [hr] at h; exact absurd h (by simp)
        | some r2 =>
          rw [hr] at h
          rw [ih hr]
          simp only [Option.bind] at h ⊢
          cases hst : step F c l2 r2 with
          | done t => rw [hst] at h; exact h
          | again t => rw [hst] at h; exact ih h

/-- Fuel monotonicity: a completed simplification is stable under any
larger fuel, so `simplifyF F n T = some R` determines `R` uniquely. -/
theorem simplifyF_mono {F : TOps} {n m : Nat} {T R : Node} (hnm : n ≤ m)
    (h : simplifyF F n T = some R) : simplifyF F m T = some R := by
  induction hnm with
  | refl => exact h
  | step _ ih => exact simplifyF_succ ih

theorem identStep_shape {c : Char} {l r t : Node} (h : identStep c l r = some t) :
    t = l ∨ t = r ∨ t = .num 0 ∨ t = .num 1 := by
  simp only [identStep] at h
  split_ifs at h <;> simp_all

theorem mulAggStep_done {l r : Node} {t : Node}
    (h : mulAggStep l r = some (.done t)) : t = .num 0 := by
  simp only [mulAggStep] at h
  split_ifs at h <;> simp_all

theorem stepNoFold_done_shape {c : Char} {l r t : Node}
    (h : stepNoFold c l r = .done t) :
    t = .op c l r ∨ t = l ∨ t = r ∨ ∃ v, t = .num v := by
  unfold stepNoFold at h
  split_ifs at h
  · cases ha : addAggStep l r with
    | some t2 => rw [ha] at h; exact absurd h (by simp)
    | none =>
      rw [ha] at h
      cases hi : identStep c l r with
      | some t2 =>
        rw [hi] at h
        have ht : t2 = t := by simpa using h
        subst ht
        rcases identStep_shape hi with h2 | h2 | h2 | h2 <;> subst h2 <;> simp
      | none =>
        rw [hi] at h
        have : Node.op c l r = t := by simpa using h
        exact Or.inl this.symm
  · cases hm : mulAggStep l r with
    | some res =>
      rw [hm] at h
      cases res with
      | done t2 =>
        have ht : t2 = t := by simpa using h
        subst ht
        have := mulAggStep_done hm
        subst this
        exact Or.inr (Or.inr (Or.inr ⟨0, rfl⟩))
      | again t2 => exact absurd h (by simp)
    | none =>
      rw [hm] at h
      cases hi : identStep c l r with
      | some t2 =>
        rw [hi] at h
        have ht : t2 = t := by simpa using h
        subst ht
        rcases identStep_shape hi with h2 | h2 | h2 | h2 <;> subst h2 <;> simp
      | none =>
        rw [hi] at h
        have : Node.op c l r = t := by simpa using h
        exact Or.inl this.symm
  · cases hi : identStep c l r with
    | some t2 =>
      rw [hi] at h
      have ht : t2 = t := by simpa using h
      subst ht
      rcases identStep_shape hi with h2 | h2 | h2 | h2 <;> subst h2 <;> simp
    | none =>
      rw [hi] at h
      have : Node.op c l r = t := by simpa using h
      exact Or.inl this.symm

/-- Everything `step` finishes with (without re-simplifying) is either
the node itself, one of its (already simplified) children, or a bare
number. -/
theorem step_done_shape {F : TOps} {c : Char} {l r t : Node}
    (h : step F c l r = .done t) :
    t = .op c l r ∨ t = l ∨ t = r ∨ ∃ v, t = .num v := by
  unfold step at h
  cases hl : isNumLeaf l with
  | none => rw [hl] at h; exact stepNoFold_done_shape h
  | some lv =>
    rw [hl] at h
    cases hr : isNumLeaf r with
    | none => rw [hr] at h; exact stepNoFold_done_shape h
    | some rv =>
      rw [hr] at h
      cases hf : foldBinary F c lv rv with
      | none =>
        simp only [hf] at h
        exact stepNoFold_done_shape h
      | some v =>
        simp only [hf] at h
        cases h
        exact Or.inr (Or.inr (Or.inr ⟨v, rfl⟩))

/-- The unary post-processing step either keeps the node or folds it to
a number. -/
theorem fnPost_cases (F : TOps) (c : Char) (u : Node) :
    fnPost F c u = .fn c u ∨ ∃ v, fnPost F c u = .num v := by
  unfold fnPost
  cases isNumLeaf u with
  | none => exact Or.inl rfl
  | some v =>
    repeat' first | exact Or.inl rfl | exact Or.inr ⟨_, rfl⟩ | split

/-- Core idempotence: whatever a completed run of `simplifyNode`
returns is a fixed point of `simplifyNode` (at the same fuel). -/
theorem simplifyF_idem {F : TOps} :
    ∀ {n : Nat} {T R : Node}, simplifyF F n T = some R →
      simplifyF F n R = some R := by
  intro n
  induction n with
  | zero => intro T R h; simp [simplifyF] at h
  | succ k ih =>
    intro T R h
    match T with
    | .num v =>
      have hR : Node.num v = R := by simpa [simplifyF] using h
      subst hR; rfl
    | .var c =>
      have hR : Node.var c = R := by simpa [simplifyF] using h
      subst hR; rfl
    | .fn c u =>
      rw [simplifyF_fn] at h
      rcases Option.map_eq_some'.mp h with ⟨u2, hu, hR⟩
      have hu2 := ih hu
      rcases fnPost_cases F c u2 with hcase | ⟨v, hcase⟩
      · rw [hcase] at hR
        subst hR
        rw [simplifyF_fn, hu2]
        simp [hcase]
      · rw [hcase] at hR
        subst hR
        rfl
    | .op c l r =>
      rw [simplifyF_op] at h
      cases hl : simplifyF F k l with
      | none => rw [hl] at h; exact absurd h (by simp)
      | some l2 =>
        rw [hl] at h
        cases hr : simplifyF F k r with
        | none => rw [hr] at h; exact absurd h (by simp)
        | some r2 =>
          rw [hr] at h
          simp only [Option.bind] at h
          cases hst : step F c l2 r2 with
          | again t => rw [hst] at h; exact simplifyF_succ (ih h)
          | done t =>
            rw [hst] at h
            have hR : t = R := by simpa using h
            subst hR
            rcases step_done_shape hst with h1 | h1 | h1 | ⟨v, h1⟩
            · subst h1
              rw [simplifyF_op, ih hl, ih hr]
              simp only [Option.bind]
              rw [hst]
            · subst h1; exact simplifyF_succ (ih hl)
            · subst h1; exact simplifyF_succ (ih hr)
            · subst h1; rfl

/-- C6: simplification is idempotent — a completed `simplifyNode` run
re-simplifies to itself, which is in particular structurally equal to
itself under `treesEqual` (the quantification over the fuel says this
holds for every terminating run of the C++ recursion). -/
theorem simplify_idempotent (F : TOps) (n : Nat) (T R : Node)
    (h : simplifyF F n T = some R) :
    ∃ R2, simplifyF F n R = some R2 ∧ treesEqual R2 R = true :=
  ⟨R, simplifyF_idem h, treesEqual_refl R⟩

/-- Closed instance of `simplify_idempotent`: `a + a` simplifies to
`a * 2`, and re-simplifying `a * 2` reproduces it. -/
theorem simplify_idempotent_witness :
    ∃ R2, simplifyF tOps0 4 (.op '*' (.var 'a') (.num 2)) = some R2 ∧
      treesEqual R2 (.op '*' (.var 'a') (.num 2)) = true := by
  have h : simplifyF tOps0 4 (.op '+' (.var 'a') (.var 'a')) =
      some (.op '*' (.var 'a') (.num 2)) := by
    norm_num [simplifyF, step, stepNoFold, addAggStep, mulAggStep, identStep, foldBinary,
      isNumLeaf, collectAddTerms, collectMulTerms, extractCoefAndBase, groupAdd,
      addToGroups, baseEq, treesEqual, chainWith, rebuildAdd, rebuildMul, groupMul,
      addToCounts, cloneTree, fnPost, List.filterMap, List.foldl, List.filter, fabs,
      eps_val]
  exact simplify_idempotent tOps0 4 (.op '+' (.var 'a') (.var 'a'))
    (.op '*' (.var 'a') (.num 2)) h

set_option maxHeartbeats 1000000 in
/-- C7: the left-nested sum `(a + a) + a` simplifies to the single term
`a * 3` — the '+' aggregation groups the three structurally equal bases
and sums their coefficients (6 units of fuel cover the full C++
recursion, and by fuel monotonicity any larger fuel gives the same
tree). -/
theorem simplify_like_terms_aaa (F : TOps) (n : Nat) (hn : 6 ≤ n) :
    simplifyF F n (.op '+' (.op '+' (.var 'a') (.var 'a')) (.var 'a')) =
      some (.op '*' (.var 'a') (.num 3)) := by
  have h6 : simplifyF F 6 (.op '+' (.op '+' (.var 'a') (.var 'a')) (.var 'a')) =
      some (.op '*' (.var 'a') (.num 3)) := by
    norm_num [simplifyF, step, stepNoFold, addAggStep, mulAggStep, identStep, foldBinary,
      isNumLeaf, collectAddTerms, collectMulTerms, extractCoefAndBase, groupAdd,
      addToGroups, baseEq, treesEqual, chainWith, rebuildAdd, rebuildMul, groupMul,
      addToCounts, cloneTree, fnPost, List.filterMap, List.foldl, List.filter, fabs,
      eps_val]
  exact simplifyF_mono hn h6

/-- Closed instance of `simplify_like_terms_aaa`. -/
theorem simplify_like_terms_aaa_witness :
    simplifyF tOps0 6 (.op '+' (.op '+' (.var 'a') (.var 'a')) (.var 'a')) =
      some (.op '*' (.var 'a') (.num 3)) :=
  simplify_like_terms_aaa tOps0 6 (by norm_num)

/-- C5: for `BinaryOp(op, Number(a), Number(b))` with a valid operator
and (for '/') a divisor at least 1e-12 in magnitude, the simplifier
constant-folds the node, and evaluating the folded tree under empty
bindings agrees with evaluating the original tree within 1e-9 (they are
in fact equal). -/
theorem constfold_eval (F : TOps) (n : Nat) (c : Char) (a b : ℚ) (hn : 2 ≤ n)
    (hc : isOp c = true) (hguard : c ≠ '/' ∨ eps ≤ fabs b) :
    ∃ S v1 v2, simplifyF F n (.op c (.num a) (.num b)) = some S ∧
      evalNode F (fun _ => none) S = .ok v1 ∧
      evalNode F (fun _ => none) (.op c (.num a) (.num b)) = .ok v2 ∧
      fabs (v1 - v2) < mkRat 1 1000000000 := by
  obtain ⟨k, hk⟩ := Nat.exists_eq_add_of_le hn
  subst hk
  have hstep : ∀ v, foldBinary F c a b = some v →
      simplifyF F (2 + k) (.op c (.num a) (.num b)) = some (.num v) := by
    intro v hv
    have h2 : 2 + k = (k + 1) + 1 := by omega
    rw [h2, simplifyF_op]
    rw [show simplifyF F (k + 1) (.num a) = some (.num a) from rfl,
      show simplifyF F (k + 1) (.num b) = some (.num b) from rfl]
    simp only [Option.bind]
    have hs : step F c (.num a) (.num b) = .done (.num v) := by
      unfold step
      simp only [isNumLeaf, hv]
    rw [hs]
  have hlt : (0 : ℚ) < mkRat 1 1000000000 := by decide
  simp only [isOp, Bool.or_eq_true, beq_iff_eq] at hc
  rcases hc with (((rfl | rfl) | rfl) | rfl) | rfl
  · exact ⟨.num (a + b), a + b, a + b, hstep _ rfl, rfl, rfl,
      by rw [sub_self, fabs_zero]; exact hlt⟩
  · exact ⟨.num (a - b), a - b, a - b, hstep _ rfl, rfl, rfl,
      by rw [sub_self, fabs_zero]; exact hlt⟩
  · exact ⟨.num (a * b), a * b, a * b, hstep _ rfl, rfl, rfl,
      by rw [sub_self, fabs_zero]; exact hlt⟩
  · have hb : eps ≤ fabs b := hguard.resolve_left (fun h => h rfl)
    have hfold : foldBinary F '/' a b = some (a / b) := by
      show (if fabs b < eps then none else some (a / b)) = some (a / b)
      rw [if_neg (not_lt.mpr hb)]
    have heval : evalNode F (fun _ => none) (.op '/' (.num a) (.num b)) = .ok (a / b) := by
      show (if fabs b < eps then Except.error EvalErr.divisionByZero
        else Except.ok (a / b)) = Except.ok (a / b)
      rw [if_neg (not_lt.mpr hb)]
    exact ⟨.num (a / b), a / b, a / b, hstep _ hfold, rfl, heval,
      by rw [sub_self, fabs_zero]; exact hlt⟩
  · exact ⟨.num (F.pow a b), F.pow a b, F.pow a b, hstep _ rfl, rfl, rfl,
      by rw [sub_self, fabs_zero]; exact hlt⟩

/-- Closed instance of `constfold_eval` at `2 + 3`. -/
theorem constfold_eval_witness :
    ∃ S v1 v2, simplifyF tOps0 2 (.op '+' (.num 2) (.num 3)) = some S ∧
      evalNode tOps0 (fun _ => none) S = .ok v1 ∧
      evalNode tOps0 (fun _ => none) (.op '+' (.num 2) (.num 3)) = .ok v2 ∧
      fabs (v1 - v2) < mkRat 1 1000000000 :=
  constfold_eval tOps0 2 '+' 2 3 (le_refl 2) (by decide) (Or.inl (by decide))
